import Mathlib

/-!
Verification of the incremental build/enrichment pipeline of the `ass`
repository (an MCP server over curated "awesome lists"), against its
natural-language specification.

The TypeScript sources embedded here:
  * `src/types.ts`   — `Item`, `GitHubMetadata | GitHubNotFound`, `ListEntry`
  * `src/diff.ts`    — `diffItems`
  * `src/enricher.ts`— `extractGitHubRepo`, `batchEnrichItems`,
                       `batchQueryListRepos`
  * `src/config.ts`  — `CONFIG.github`
  * `scripts/build-items.ts` — freshness classification, dead-URL filter,
                       dead-item reaper, blocklist persistence

Machine integers of the source are JS numbers used only as array indices and
counters; they are embedded as `Nat`/`Int`.  JS ISO-timestamp strings compared
with `<`/`>` are embedded as `String` with its lexicographic order, which
agrees with the JS comparison on ASCII timestamps.
-/

/-! ## Data model (`src/types.ts`) -/

/-- `GitHubMetadata | GitHubNotFound` from `src/types.ts`: the `github` field
of an item is either fully resolved metadata
(`{stars, language, pushedAt}`) or an explicit dead marker
(`{notFound: true, checkedAt}`), distinguished in JS by the `notFound`
marker key. -/
inductive GitHubField where
  | resolved (stars : Int) (language : Option String) (pushedAt : String)
  | notFound (checkedAt : String)
  deriving Repr, DecidableEq

/-- `Item` from `src/types.ts`.  `subcategory`, `lastEnriched` and `github`
are optional fields. -/
structure Item where
  name : String
  url : String
  description : String
  category : String
  subcategory : Option String := none
  lastEnriched : Option String := none
  github : Option GitHubField := none
  deriving Repr, DecidableEq

/-- `ListEntry` from `src/types.ts` (one source's snapshot entry). -/
structure ListEntry where
  lastParsed : String
  pushedAt : String
  items : List Item
  deriving Repr, DecidableEq

/-- `DiffResult` from `src/types.ts`. -/
structure DiffResult where
  added : List Item
  removed : List Item
  unchanged : List Item
  updated : List Item
  deriving Repr, DecidableEq

/-! ## `diffItems` (`src/diff.ts` lines 11–50)

```ts
const oldByUrl = new Map(oldItems.map(i => [i.url, i]));
```
A JS `Map` built from an entry list keeps, for each key, the LAST entry with
that key; `oldByUrl.get(u)` is therefore the last item of `oldItems` whose
`url` is `u`. -/

/-- `oldByUrl.get(u)`: the last item of `items` whose `url` equals `u`
(JS `Map` construction overwrites earlier duplicate keys). -/
def mapGetByUrl (items : List Item) (u : String) : Option Item :=
  items.reverse.find? (fun i => i.url == u)

/-- `newByUrl.has(u)`: whether some item of `items` has `url = u`. -/
def hasUrl (items : List Item) (u : String) : Bool :=
  items.any (fun i => i.url == u)

/-- The `{...newItem, github: oldItem.github, lastEnriched: oldItem.lastEnriched}`
object spread in `diffItems`: a fresh item carrying the new parse's fields
but the old item's enrichment data. -/
def preserveEnrichment (newItem oldItem : Item) : Item :=
  { newItem with github := oldItem.github, lastEnriched := oldItem.lastEnriched }

/-- The `for (const newItem of newItems)` loop of `diffItems`
(`src/diff.ts` lines 21–40): classifies each new item into
(added, unchanged, updated), preserving input order per bucket. -/
def classifyNew (oldItems : List Item) : List Item → List Item × List Item × List Item
  | [] => ([], [], [])
  | n :: rest =>
    let r := classifyNew oldItems rest
    match mapGetByUrl oldItems n.url with
    | none => (n :: r.1, r.2.1, r.2.2)
    | some o =>
      if o.name == n.name && o.description == n.description then
        (r.1, preserveEnrichment n o :: r.2.1, r.2.2)
      else
        (r.1, r.2.1, preserveEnrichment n o :: r.2.2)

/-- `diffItems` (`src/diff.ts`): partitions `newItems` into
added/unchanged/updated against `oldItems` (identity = URL) and collects the
old items whose URL is absent from `newItems` as `removed`. -/
def diffItems (oldItems newItems : List Item) : DiffResult :=
  let r := classifyNew oldItems newItems
  { added := r.1
    removed := oldItems.filter (fun o => !(hasUrl newItems o.url))
    unchanged := r.2.1
    updated := r.2.2 }

example :
    diffItems [⟨"X", "A", "d1", "c", none, some "t0", some (.resolved 5 none "p")⟩]
      [⟨"X", "A", "d1", "c", none, none, none⟩] =
    { added := []
      removed := []
      unchanged := [⟨"X", "A", "d1", "c", none, some "t0", some (.resolved 5 none "p")⟩]
      updated := [] } := by decide

example :
    diffItems [⟨"Old", "A", "d", "c", none, some "t0", some (.resolved 5 none "p")⟩]
      [⟨"New", "A", "d", "c", none, none, none⟩] =
    { added := []
      removed := []
      unchanged := []
      updated := [⟨"New", "A", "d", "c", none, some "t0", some (.resolved 5 none "p")⟩] } := by
  decide

example :
    diffItems [⟨"X", "A", "d", "c", none, none, none⟩] [] =
    { added := []
      removed := [⟨"X", "A", "d", "c", none, none, none⟩]
      unchanged := []
      updated := [] } := by decide

/-! ## C1, C2: the diff partition -/

lemma preserveEnrichment_url (n o : Item) : (preserveEnrichment n o).url = n.url := rfl

lemma mapGetByUrl_spec {old : List Item} {u : String} {o : Item}
    (h : mapGetByUrl old u = some o) : o ∈ old ∧ o.url = u := by
  unfold mapGetByUrl at h
  refine ⟨List.mem_reverse.mp (List.mem_of_find?_eq_some h), ?_⟩
  have hp := List.find?_some h
  simpa using hp

lemma cons_middle_perm_map (x : Item) (l1 l2 : List Item) :
    ((l1 ++ x :: l2).map Item.url).Perm (x.url :: (l1 ++ l2).map Item.url) := by
  simpa using (@List.perm_middle Item x l1 l2).map Item.url

lemma classifyNew_perm (old : List Item) : ∀ new : List Item,
    (((classifyNew old new).1 ++ (classifyNew old new).2.1 ++ (classifyNew old new).2.2).map
        Item.url).Perm (new.map Item.url) := by
  intro new
  induction new with
  | nil => simp [classifyNew]
  | cons n rest ih =>
    rcases hr : classifyNew old rest with ⟨a, u, up⟩
    rw [hr] at ih
    cases hmg : mapGetByUrl old n.url with
    | none =>
      simp only [classifyNew, hmg, hr]
      simpa using ih.cons n.url
    | some o =>
      by_cases hb : (o.name == n.name && o.description == n.description) = true
      · simp only [classifyNew, hmg, hr, hb, if_true]
        have h1 : ((a ++ preserveEnrichment n o :: u ++ up).map Item.url).Perm
            (n.url :: (a ++ (u ++ up)).map Item.url) := by
          simpa [List.append_assoc, preserveEnrichment_url] using
            cons_middle_perm_map (preserveEnrichment n o) a (u ++ up)
        refine h1.trans ?_
        simpa [List.append_assoc] using ih.cons n.url
      · simp only [classifyNew, hmg, hr, hb, if_false]
        have h1 : ((a ++ u ++ preserveEnrichment n o :: up).map Item.url).Perm
            (n.url :: ((a ++ u) ++ up).map Item.url) := by
          simpa [preserveEnrichment_url] using
            cons_middle_perm_map (preserveEnrichment n o) (a ++ u) up
        refine h1.trans ?_
        simpa [List.append_assoc] using ih.cons n.url

/-- C1: for every pair of input item lists, `diffItems` returns a partition:
the URL multiset of `added ++ unchanged ++ updated` is a permutation of the
URL list of `newItems` (hence their URL sets coincide), and `removed` is
exactly the sublist of `oldItems` whose URL does not occur in `newItems`. -/
theorem c1_diffItems_partition (oldItems newItems : List Item) :
    (((diffItems oldItems newItems).added ++ (diffItems oldItems newItems).unchanged ++
        (diffItems oldItems newItems).updated).map Item.url).Perm (newItems.map Item.url) ∧
    (∀ u : String,
      u ∈ ((diffItems oldItems newItems).added ++ (diffItems oldItems newItems).unchanged ++
        (diffItems oldItems newItems).updated).map Item.url ↔ u ∈ newItems.map Item.url) ∧
    (diffItems oldItems newItems).removed
      = oldItems.filter (fun o => !(hasUrl newItems o.url)) := by
  refine ⟨classifyNew_perm oldItems newItems, fun u => (classifyNew_perm oldItems newItems).mem_iff, rfl⟩

lemma mem_classifyNew_preserved (old : List Item) : ∀ (new : List Item) (x : Item),
    x ∈ (classifyNew old new).2.1 ∨ x ∈ (classifyNew old new).2.2 →
    ∃ n o, mapGetByUrl old n.url = some o ∧ x = preserveEnrichment n o := by
  intro new
  induction new with
  | nil => intro x hx; simp [classifyNew] at hx
  | cons n rest ih =>
    intro x hx
    rcases hr : classifyNew old rest with ⟨a, u, up⟩
    rw [hr] at ih
    cases hmg : mapGetByUrl old n.url with
    | none =>
      simp only [classifyNew, hmg, hr] at hx
      exact ih x hx
    | some o =>
      simp only [classifyNew, hmg, hr] at hx
      by_cases hb : (o.name == n.name && o.description == n.description) = true
      · rw [if_pos hb] at hx
        rcases hx with hx | hx
        · rcases List.mem_cons.mp hx with hx | hx
          · exact ⟨n, o, hmg, hx⟩
          · exact ih x (Or.inl hx)
        · exact ih x (Or.inr hx)
      · rw [if_neg hb] at hx
        rcases hx with hx | hx
        · exact ih x (Or.inl hx)
        · rcases List.mem_cons.mp hx with hx | hx
          · exact ⟨n, o, hmg, hx⟩
          · exact ih x (Or.inr hx)

/-- C2: every item placed by `diffItems` in `unchanged` or `updated` carries
the `github` enrichment record and the `lastEnriched` timestamp of the old
item with the same URL, verbatim — never values derived from the newly
parsed item. -/
theorem c2_diff_preserves_enrichment (oldItems newItems : List Item) (x : Item)
    (hx : x ∈ (diffItems oldItems newItems).unchanged ∨
      x ∈ (diffItems oldItems newItems).updated) :
    ∃ o ∈ oldItems, o.url = x.url ∧ x.github = o.github ∧
      x.lastEnriched = o.lastEnriched := by
  obtain ⟨n, o, hmg, hxeq⟩ := mem_classifyNew_preserved oldItems newItems x hx
  obtain ⟨hmem, hurl⟩ := mapGetByUrl_spec hmg
  subst hxeq
  exact ⟨o, hmem, by simp [preserveEnrichment, hurl], rfl, rfl⟩

/-- Sample prior-snapshot item used to instantiate the diff theorems. -/
def sampleOldA : Item :=
  ⟨"Old name", "https://github.com/a/r", "old desc", "Cat", none, some "2026-01-01T00:00:00Z",
    some (.resolved 5 (some "Rust") "2025-12-31T00:00:00Z")⟩

/-- Sample freshly-parsed item with the same URL as `sampleOldA` but a new
name, so the diff classifies it as updated. -/
def sampleNewA : Item :=
  ⟨"New name", "https://github.com/a/r", "old desc", "Cat", none, none, none⟩

theorem c2_diff_preserves_enrichment_witness :
    ∃ o ∈ [sampleOldA], o.url = (preserveEnrichment sampleNewA sampleOldA).url ∧
      (preserveEnrichment sampleNewA sampleOldA).github = o.github ∧
      (preserveEnrichment sampleNewA sampleOldA).lastEnriched = o.lastEnriched :=
  c2_diff_preserves_enrichment [sampleOldA] [sampleNewA]
    (preserveEnrichment sampleNewA sampleOldA) (Or.inr (by decide))

/-! ## C3: freshness classification (`scripts/build-items.ts` lines 78–91)

```ts
const cached = existingIndex?.lists[list.repo];
const remote = listMetadata.get(list.repo);
if (!cached || !remote || remote.pushedAt > cached.lastParsed) staleLists.push(list);
else freshLists.push(list);
```
`remote` is `{pushedAt} | null | undefined`; it is embedded as
`Option (Option String)`: `none` = absent from the map, `some none` = the
`null` marker written by `batchQueryListRepos` for an unresolved repo,
`some (some t)` = a resolved timestamp.  JS `!remote` is true for both
`undefined` and `null`. -/

/-- One element of `lists.json`: `{repo, name, stars}`. -/
structure SourceList where
  repo : String
  name : String
  stars : Int
  deriving Repr, DecidableEq

/-- The stale test `!cached || !remote || remote.pushedAt > cached.lastParsed`. -/
def isStale (cached : Option ListEntry) (remote : Option (Option String)) : Bool :=
  match cached with
  | none => true
  | some c =>
    match remote with
    | some (some pushedAt) => decide (c.lastParsed < pushedAt)
    | _ => true

/-- The `for (const list of lists)` classification loop: each list goes to
`staleLists` (first component) or `freshLists` (second component). -/
def classifyLists (cachedOf : String → Option ListEntry)
    (metaOf : String → Option (Option String)) (lists : List SourceList) :
    List SourceList × List SourceList :=
  (lists.filter (fun l => isStale (cachedOf l.repo) (metaOf l.repo)),
   lists.filter (fun l => !(isStale (cachedOf l.repo) (metaOf l.repo))))

lemma isStale_eq_false_iff (cached : Option ListEntry) (remote : Option (Option String)) :
    isStale cached remote = false ↔
      ∃ c r, cached = some c ∧ remote = some (some r) ∧ r ≤ c.lastParsed := by
  cases cached with
  | none => simp [isStale]
  | some c =>
    cases remote with
    | none => simp [isStale]
    | some ro =>
      cases ro with
      | none => simp [isStale]
      | some r =>
        simp only [isStale, decide_eq_false_iff_not, not_lt, Option.some.injEq]
        constructor
        · intro h; exact ⟨c, r, rfl, rfl, h⟩
        · rintro ⟨c', r', hc, hr, h⟩
          cases hc; cases hr; exact h

/-- C3: the classifier marks a source fresh iff a prior snapshot entry
exists, the remote timestamp resolved (non-null), and the remote timestamp is
at most the entry's `lastParsed`; in particular a source with no prior entry
always lands in `staleLists`, regardless of the remote timestamp. -/
theorem c3_freshness_classification (cachedOf : String → Option ListEntry)
    (metaOf : String → Option (Option String)) (lists : List SourceList) :
    (∀ l, l ∈ (classifyLists cachedOf metaOf lists).2 ↔
      l ∈ lists ∧ ∃ c r, cachedOf l.repo = some c ∧ metaOf l.repo = some (some r) ∧
        r ≤ c.lastParsed) ∧
    (∀ l, l ∈ lists → cachedOf l.repo = none →
      l ∈ (classifyLists cachedOf metaOf lists).1) := by
  constructor
  · intro l
    rw [show (classifyLists cachedOf metaOf lists).2
        = lists.filter (fun l => !(isStale (cachedOf l.repo) (metaOf l.repo))) from rfl,
      List.mem_filter]
    simp only [Bool.not_eq_true', isStale_eq_false_iff]
  · intro l hl hc
    rw [show (classifyLists cachedOf metaOf lists).1
        = lists.filter (fun l => isStale (cachedOf l.repo) (metaOf l.repo)) from rfl,
      List.mem_filter]
    exact ⟨hl, by simp [isStale, hc]⟩

theorem c3_freshness_classification_witness :
    (⟨"a/r", "A list", 10⟩ : SourceList) ∈
      (classifyLists (fun _ => none) (fun _ => some (some "2026-01-01T00:00:00Z"))
        [⟨"a/r", "A list", 10⟩]).1 :=
  (c3_freshness_classification (fun _ => none)
    (fun _ => some (some "2026-01-01T00:00:00Z")) [⟨"a/r", "A list", 10⟩]).2
    ⟨"a/r", "A list", 10⟩ (by decide) rfl

/-! ## `extractGitHubRepo` (`src/enricher.ts` lines 5–22)

```ts
const match = url.match(/github\.com\/([^\/]+\/[^\/]+)/);
```
The regex scans for the first position where the whole pattern matches:
the literal `github.com/`, a nonempty run of non-`/` characters (the owner,
which necessarily ends at the next `/`), a `/`, and a nonempty run of
non-`/` characters (the name, greedy, so it extends to the next `/` or the
end).  If the owner/name part fails at one occurrence of `github.com/`, the
engine keeps scanning from the next character.  `.*` in the cleanup regexes
is embedded as "to the end of the string", which agrees with JS on
newline-free URLs. -/

/-- Whether `pat` is an initial segment of `cs` (used for the literal
`github.com/` of the regex and for `String.startsWith`). -/
def startsWithChars : List Char → List Char → Bool
  | [], _ => true
  | _ :: _, [] => false
  | p :: ps, c :: cs => p == c && startsWithChars ps cs

/-- Attempt the capture group `([^\/]+\/[^\/]+)` at the position right after
a `github.com/` literal. -/
def matchRepoAt (cs : List Char) : Option String :=
  let owner := cs.takeWhile (fun c => c ≠ '/')
  if owner.isEmpty then none
  else
    match cs.drop owner.length with
    | '/' :: rest2 =>
      let name := rest2.takeWhile (fun c => c ≠ '/')
      if name.isEmpty then none else some (String.mk (owner ++ '/' :: name))
    | _ => none

/-- Scan for the first position where the full pattern
`github\.com\/([^\/]+\/[^\/]+)` matches, returning the capture group. -/
def findRepoMatch : List Char → Option String
  | [] => none
  | c :: cs =>
    if startsWithChars "github.com/".toList (c :: cs) then
      match matchRepoAt ((c :: cs).drop 11) with
      | some r => some r
      | none => findRepoMatch cs
    else findRepoMatch cs

/-- Whether `suf` is a final segment of `cs`. -/
def endsWithChars (suf cs : List Char) : Bool :=
  startsWithChars suf.reverse cs.reverse

/-- `repo.replace(/\.git$/, "")`: strip one trailing `.git`. -/
def stripGitSuffix (s : String) : String :=
  if endsWithChars ".git".toList s.toList then
    String.mk (s.toList.take (s.toList.length - 4))
  else s

/-- `repo.replace(/#.*$/, "")` / `repo.replace(/\?.*$/, "")`: cut the string
at the first occurrence of `ch`. -/
def cutAt (ch : Char) (s : String) : String :=
  String.mk (s.toList.takeWhile (fun c => c ≠ ch))

/-- `invalidPrefixes` of `extractGitHubRepo`. -/
def invalidPrefixes : List String :=
  ["topics", "sponsors", "orgs", "settings", "marketplace"]

/-- `extractGitHubRepo` (`src/enricher.ts`): extract and clean the
`owner/name` repo id from a URL, or `null` for non-repo URLs. -/
def extractGitHubRepo (url : String) : Option String :=
  match findRepoMatch url.toList with
  | none => none
  | some raw =>
    let repo := cutAt '?' (cutAt '#' (stripGitSuffix raw))
    if invalidPrefixes.any (fun p => startsWithChars (p ++ "/").toList repo.toList) then none
    else some repo

example : extractGitHubRepo "https://github.com/owner/repo" = some "owner/repo" := by decide
example : extractGitHubRepo "https://github.com/owner/repo/tree/main" = some "owner/repo" := by
  decide
example : extractGitHubRepo "https://example.com/tool" = none := by decide
example : extractGitHubRepo "https://github.com/owner/repo.git" = some "owner/repo" := by decide
example : extractGitHubRepo "https://github.com/owner/repo#readme" = some "owner/repo" := by
  decide
example : extractGitHubRepo "https://github.com/topics/awesome" = none := by decide

/-! ## Batch enrichment (`src/enricher.ts` lines 30–193, `src/config.ts`)

The enrichment loop performs network calls; its embedding abstracts one
GraphQL POST as an oracle giving the outcome of each attempt:
a successful response (per-slot repository data plus the repos named by
`NOT_FOUND` GraphQL errors), a thrown error whose message matches
`SecondaryRateLimit`/`403`, or any other thrown error.  `consecutiveErrors`
and `currentDelay` only shape sleep durations and logging, never the data
flow, and are omitted.  The loop itself can fail to terminate (see C4), so
it is embedded with explicit fuel: `none` means the fuel was exhausted with
the loop still running. -/

/-- `CONFIG.github` (`src/config.ts` lines 16–35). -/
structure GithubConfig where
  batchSize : Nat
  baseDelayMs : Nat
  maxDelayMs : Nat
  maxBackoffMs : Nat
  lowRateLimitThreshold : Nat
  criticalRateLimitThreshold : Nat
  maxRetries : Nat
  logFrequency : Nat
  deriving Repr, DecidableEq

/-- The literal values of `CONFIG.github` in `src/config.ts`. -/
def CONFIG_github : GithubConfig :=
  { batchSize := 50, baseDelayMs := 500, maxDelayMs := 10000, maxBackoffMs := 60000,
    lowRateLimitThreshold := 500, criticalRateLimitThreshold := 100, maxRetries := 3,
    logFrequency := 10 }

/-- One `repoN` slot of a GraphQL response:
`{stargazerCount, primaryLanguage { name }, pushedAt}`. -/
structure RepoData where
  stargazerCount : Int
  primaryLanguage : Option String
  pushedAt : String
  deriving Repr, DecidableEq

/-- `data.primaryLanguage?.name || null`: JS `||` maps an empty-string name
to `null` as well. -/
def jsOrNull (l : Option String) : Option String :=
  match l with
  | some n => if n = "" then none else some n
  | none => none

/-- Per-entity outcome handling of `batchEnrichItems`
(`src/enricher.ts` lines 143–159): resolved slot data, explicit
`NOT_FOUND`, or silently absent. -/
def enrichOutcome (now : String) (data : Option RepoData) (isNotFound : Bool)
    (item : Item) : Item :=
  match data with
  | some d =>
    { item with
        github := some (.resolved d.stargazerCount (jsOrNull d.primaryLanguage) d.pushedAt),
        lastEnriched := some now }
  | none =>
    if isNotFound then
      { item with github := some (.notFound now), lastEnriched := some now }
    else item

/-- Mutating every item of `repoMap.get(repo)` — i.e. every item whose URL
extracts to `repo` — according to one response slot.  The JS groups hold
references collected before the loop; since `enrichOutcome` never changes
`url`, regrouping by extraction is equivalent. -/
def applySlot (now : String) (repo : String) (data : Option RepoData) (isNF : Bool)
    (items : List Item) : List Item :=
  items.map (fun it =>
    if extractGitHubRepo it.url = some repo then enrichOutcome now data isNF it else it)

/-- The `for (let j = 0; j < batch.length; j++)` result-processing loop of
`batchEnrichItems` (`src/enricher.ts` lines 138–160): `j` is the response
slot index, `result j` the contents of `result[`repo` + j]`, and the
`notFound` list holds the repos named by `NOT_FOUND` GraphQL errors. -/
def applyBatchAux (now : String) (result : Nat → Option RepoData) (notFound : List String) :
    List String → Nat → List Item → List Item
  | [], _, items => items
  | repo :: rest, j, items =>
      applyBatchAux now result notFound rest (j + 1)
        (applySlot now repo (result j) (notFound.contains repo) items)

/-- Process one batch's response against the item list, starting at slot 0. -/
def applyBatch (now : String) (batch : List String) (result : Nat → Option RepoData)
    (notFound : List String) (items : List Item) : List Item :=
  applyBatchAux now result notFound batch 0 items

/-- `if (!repoMap.has(repo)) repoMap.set(repo, [])`: JS `Map` keys are kept
in first-insertion order. -/
def insertKey (ks : List String) (r : String) : List String :=
  if ks.contains r then ks else ks ++ [r]

/-- `Array.from(repoMap.keys())` (`src/enricher.ts` lines 37–47): the
distinct extracted repos of the input items, in first-occurrence order;
items whose URL has no extractable repo contribute nothing. -/
def repoKeys (items : List Item) : List String :=
  items.foldl
    (fun ks it =>
      match extractGitHubRepo it.url with
      | some r => insertKey ks r
      | none => ks) []

/-- The observable outcome of one GraphQL POST attempt in
`batchEnrichItems`: success (HTTP ok, possibly with partial `NOT_FOUND`
errors), an error matching the secondary-rate-limit test of line 170, or any
other thrown error. -/
inductive AttemptOutcome where
  | success (now : String) (result : Nat → Option RepoData) (notFound : List String)
  | rateLimit
  | otherError

/-- The `for (let i = 0; i < repos.length; i += batchSize)` loop of
`batchEnrichItems` (`src/enricher.ts` lines 56–189), with fuel.  On
`rateLimit` the source executes `i -= batchSize; continue`, after which the
loop update adds `batchSize` back: the index is unchanged and the same batch
is retried.  On success the batch result is applied and `i` advances; on any
other error the batch is skipped and `i` advances.  `none` = fuel exhausted
with the loop still running. -/
def enrichLoop (repos : List String) (batchSize : Nat) (oracle : Nat → AttemptOutcome) :
    Nat → Nat → Nat → List Item → Option (List Item)
  | 0, _, _, _ => none
  | fuel + 1, attempt, i, items =>
    if i < repos.length then
      let batch := (repos.drop i).take batchSize
      match oracle attempt with
      | .success now result notFound =>
        enrichLoop repos batchSize oracle fuel (attempt + 1) (i + batchSize)
          (applyBatch now batch result notFound items)
      | .rateLimit => enrichLoop repos batchSize oracle fuel (attempt + 1) i items
      | .otherError =>
        enrichLoop repos batchSize oracle fuel (attempt + 1) (i + batchSize) items
    else some items

/-- `batchEnrichItems` (`src/enricher.ts` lines 30–193): without a
`GITHUB_TOKEN` it returns its input list immediately, before any repo
extraction or network traffic; otherwise it runs the batch loop over the
deduplicated extracted repos. -/
def batchEnrichItems (token : Option String) (batchSize : Nat)
    (oracle : Nat → AttemptOutcome) (fuel : Nat) (items : List Item) : Option (List Item) :=
  match token with
  | none => some items
  | some _ => enrichLoop (repoKeys items) batchSize oracle fuel 0 0 items

/-- C7: when no credential is available (`token = none`), `batchEnrichItems`
is a no-op passthrough: for every input it returns exactly the input list
(`some` = normal return, never a thrown error), independently of the network
oracle and of the fuel — no network call can influence the result. -/
theorem c7_no_token_passthrough (batchSize : Nat) (oracle : Nat → AttemptOutcome)
    (fuel : Nat) (items : List Item) :
    batchEnrichItems none batchSize oracle fuel items = some items := rfl

/-- C4 (code-bug evidence): `CONFIG.github.maxRetries` is 3, yet under a
persistent rate-limit signal the batch loop of `batchEnrichItems` re-runs
the same batch forever — for every amount of fuel, and from any attempt
number, the loop is still running (`none`) with the index stuck at 0.  The
retry ceiling the configuration documents is never consulted, so the loop
need not terminate. -/
theorem c4_rate_limit_retry_unbounded :
    CONFIG_github.maxRetries = 3 ∧
    ∀ (repos : List String) (batchSize fuel attempt : Nat) (items : List Item),
      0 < repos.length →
      enrichLoop repos batchSize (fun _ => .rateLimit) fuel attempt 0 items = none := by
  refine ⟨rfl, ?_⟩
  intro repos batchSize fuel
  induction fuel with
  | zero => intro attempt items _; rfl
  | succ fuel ih =>
    intro attempt items h
    rw [enrichLoop, if_pos h]
    exact ih (attempt + 1) items h

theorem c4_rate_limit_retry_unbounded_witness :
    0 < ["a/r"].length ∧
      enrichLoop ["a/r"] 50 (fun _ => .rateLimit) 500 0 0 [] = none :=
  ⟨by decide, c4_rate_limit_retry_unbounded.2 ["a/r"] 50 500 0 [] (by decide)⟩

/-! ## Characterising the slot loop (for C6, C9) -/

/-- Pointwise effect of the slot-processing loop on a single item. -/
def slotFold (now : String) (result : Nat → Option RepoData) (nf : List String) :
    List String → Nat → Item → Item
  | [], _, it => it
  | repo :: rest, j, it =>
      slotFold now result nf rest (j + 1)
        (if extractGitHubRepo it.url = some repo then
          enrichOutcome now (result j) (nf.contains repo) it
        else it)

lemma applyBatchAux_eq_map (now : String) (result : Nat → Option RepoData)
    (nf : List String) : ∀ (batch : List String) (j : Nat) (items : List Item),
    applyBatchAux now result nf batch j items = items.map (slotFold now result nf batch j) := by
  intro batch
  induction batch with
  | nil => intro j items; simp [applyBatchAux, slotFold]
  | cons repo rest ih =>
    intro j items
    rw [applyBatchAux, applySlot, ih, List.map_map]
    rfl

lemma enrichOutcome_url (now : String) (d : Option RepoData) (b : Bool) (it : Item) :
    (enrichOutcome now d b it).url = it.url := by
  cases d <;> cases b <;> simp [enrichOutcome]

lemma slotFold_extract_none {now : String} {result : Nat → Option RepoData} {nf : List String}
    {it : Item} (hit : extractGitHubRepo it.url = none) :
    ∀ (batch : List String) (j : Nat), slotFold now result nf batch j it = it := by
  intro batch
  induction batch with
  | nil => intro j; rfl
  | cons repo rest ih =>
    intro j
    rw [slotFold, if_neg (by simp [hit])]
    exact ih (j + 1)

lemma slotFold_not_mem {now : String} {result : Nat → Option RepoData} {nf : List String}
    {it : Item} {r : String} (hit : extractGitHubRepo it.url = some r) :
    ∀ (batch : List String) (j : Nat), r ∉ batch → slotFold now result nf batch j it = it := by
  intro batch
  induction batch with
  | nil => intro j _; rfl
  | cons repo rest ih =>
    intro j hr
    have hne : r ≠ repo := fun h => hr (h ▸ List.mem_cons_self repo rest)
    rw [slotFold, if_neg (by simp [hit, hne])]
    exact ih (j + 1) (fun h => hr (List.mem_cons_of_mem repo h))

lemma slotFold_mem {now : String} {result : Nat → Option RepoData} {nf : List String} :
    ∀ (batch : List String) (k j : Nat) (it : Item) (r : String),
      extractGitHubRepo it.url = some r → batch.Nodup → batch.get? k = some r →
      slotFold now result nf batch j it = enrichOutcome now (result (j + k)) (nf.contains r) it := by
  intro batch
  induction batch with
  | nil => intro k j it r _ _ hk; simp at hk
  | cons repo rest ih =>
    intro k j it r hit hnd hk
    cases k with
    | zero =>
      have hrr : repo = r := by simpa using hk
      subst hrr
      rw [slotFold, if_pos (by rw [hit])]
      have hnotin : repo ∉ rest := (List.nodup_cons.mp hnd).1
      have hurl :
          extractGitHubRepo (enrichOutcome now (result j) (nf.contains repo) it).url
            = some repo := by rw [enrichOutcome_url]; exact hit
      rw [slotFold_not_mem hurl rest (j + 1) hnotin]
      simp
    | succ k =>
      have hk' : rest.get? k = some r := by simpa using hk
      have hmem : r ∈ rest := List.get?_mem hk'
      have hne : repo ≠ r := fun h => (List.nodup_cons.mp hnd).1 (h ▸ hmem)
      rw [slotFold, if_neg (by simp [hit]; exact fun h => hne h.symm)]
      rw [ih k (j + 1) it r hit (List.nodup_cons.mp hnd).2 hk']
      have harith : j + 1 + k = j + (k + 1) := by omega
      rw [harith]

lemma applyBatch_get? (now : String) (batch : List String) (result : Nat → Option RepoData)
    (nf : List String) (items : List Item) (k : Nat) :
    (applyBatch now batch result nf items).get? k
      = (items.get? k).map (slotFold now result nf batch 0) := by
  rw [applyBatch, applyBatchAux_eq_map, List.get?_map]

lemma mem_insertKey {ks : List String} {r a : String} :
    a ∈ insertKey ks r ↔ a ∈ ks ∨ a = r := by
  unfold insertKey
  split
  · rename_i hc
    constructor
    · exact Or.inl
    · rintro (h | rfl)
      · exact h
      · simpa using hc
  · simp [List.mem_append]

lemma insertKey_nodup {ks : List String} {r : String} (h : ks.Nodup) :
    (insertKey ks r).Nodup := by
  unfold insertKey
  split
  · exact h
  · rename_i hc
    have hr : r ∉ ks := by simpa using hc
    simp [List.nodup_append, h, hr]

lemma repoKeys_nodup (items : List Item) : (repoKeys items).Nodup := by
  have main : ∀ (its : List Item) (ks : List String), ks.Nodup →
      (its.foldl
        (fun ks it =>
          match extractGitHubRepo it.url with
          | some r => insertKey ks r
          | none => ks) ks).Nodup := by
    intro its
    induction its with
    | nil => intro ks h; exact h
    | cons it rest ih =>
      intro ks h
      rw [List.foldl_cons]
      cases hx : extractGitHubRepo it.url with
      | none => simpa [hx] using ih ks h
      | some r => simpa [hx] using ih (insertKey ks r) (insertKey_nodup h)
  exact main items [] List.nodup_nil

lemma repoKeys_sound (items : List Item) :
    ∀ r ∈ repoKeys items, ∃ it ∈ items, extractGitHubRepo it.url = some r := by
  have main : ∀ (its : List Item) (ks : List String) (r : String),
      r ∈ its.foldl
        (fun ks it =>
          match extractGitHubRepo it.url with
          | some r => insertKey ks r
          | none => ks) ks →
      r ∈ ks ∨ ∃ it ∈ its, extractGitHubRepo it.url = some r := by
    intro its
    induction its with
    | nil => intro ks r h; exact Or.inl h
    | cons it rest ih =>
      intro ks r h
      rw [List.foldl_cons] at h
      cases hx : extractGitHubRepo it.url with
      | none =>
        rw [hx] at h
        rcases ih ks r h with h | ⟨it', hm, he⟩
        · exact Or.inl h
        · exact Or.inr ⟨it', List.mem_cons_of_mem it hm, he⟩
      | some r0 =>
        rw [hx] at h
        rcases ih (insertKey ks r0) r h with h | ⟨it', hm, he⟩
        · rcases mem_insertKey.mp h with h | rfl
          · exact Or.inl h
          · exact Or.inr ⟨it, List.mem_cons_self it rest, hx⟩
        · exact Or.inr ⟨it', List.mem_cons_of_mem it hm, he⟩
  intro r hr
  rcases main items [] r hr with h | h
  · simp at h
  · exact h

/-- C9: the response-slot mapping uses only the list of entities actually
sent.  The sent list `repoKeys items` contains only successfully extracted
repos; an item whose URL yields no repo is returned unenriched at its
position; and for a `Nodup` sent list, response slot `j` is attributed
exactly to the items whose URL extracts to the `j`-th sent repo — positions
of excluded items play no role. -/
theorem c9_slot_mapping_uses_sent_list (now : String) (result : Nat → Option RepoData)
    (notFound : List String) (items : List Item) :
    (∀ r ∈ repoKeys items, ∃ it ∈ items, extractGitHubRepo it.url = some r) ∧
    (∀ k it, items.get? k = some it → extractGitHubRepo it.url = none →
      (applyBatch now (repoKeys items) result notFound items).get? k = some it) ∧
    (∀ j r k it, (repoKeys items).get? j = some r → items.get? k = some it →
      extractGitHubRepo it.url = some r →
      (applyBatch now (repoKeys items) result notFound items).get? k
        = some (enrichOutcome now (result j) (notFound.contains r) it)) := by
  refine ⟨repoKeys_sound items, ?_, ?_⟩
  · intro k it hk hnone
    rw [applyBatch_get?, hk]
    simp [slotFold_extract_none hnone]
  · intro j r k it hj hk hit
    rw [applyBatch_get?, hk]
    simp only [Option.map_some']
    rw [slotFold_mem (repoKeys items) j 0 it r hit (repoKeys_nodup items) hj]
    simp

/-- First sample batch candidate: a GitHub URL (sent as slot 0). -/
def wItem1 : Item := ⟨"One", "https://github.com/o/one", "d1", "c", none, none, none⟩

/-- Second sample batch candidate: fails repo extraction, so it is excluded
from the composed query. -/
def wItem2 : Item := ⟨"Two", "https://example.com/two", "d2", "c", none, none, none⟩

/-- Third sample batch candidate: a GitHub URL (sent as slot 1, not 2). -/
def wItem3 : Item := ⟨"Three", "https://github.com/o/three", "d3", "c", none, none, none⟩

/-- Response data for the sample batch: slot 1 resolves. -/
def wResult : Nat → Option RepoData :=
  fun j => if j = 1 then some ⟨7, some "Go", "2026-02-02T00:00:00Z"⟩ else none

theorem c9_slot_mapping_uses_sent_list_witness :
    (applyBatch "T" (repoKeys [wItem1, wItem2, wItem3]) wResult [] [wItem1, wItem2, wItem3]).get? 2
      = some (enrichOutcome "T" (wResult 1) (List.contains [] "o/three") wItem3) :=
  (c9_slot_mapping_uses_sent_list "T" wResult [] [wItem1, wItem2, wItem3]).2.2 1 "o/three" 2
    wItem3 (by decide) rfl (by decide)

/-- C6: per-entity outcome handling is three-way.  For an item grouped under
the repo at response slot `j`: a resolved slot writes a `resolved` record
and stamps `lastEnriched` to the call time; an explicit not-found writes
`notFound` with `checkedAt` = call time and stamps `lastEnriched`; a slot
that is absent (`none`) with no accompanying not-found error leaves the item
record completely untouched. -/
theorem c6_three_way_outcome (now : String) (batch : List String)
    (result : Nat → Option RepoData) (notFound : List String) (items : List Item)
    (j k : Nat) (r : String) (it : Item)
    (hnd : batch.Nodup) (hj : batch.get? j = some r) (hk : items.get? k = some it)
    (hit : extractGitHubRepo it.url = some r) :
    (∀ d, result j = some d →
      (applyBatch now batch result notFound items).get? k
        = some { it with
            github := some (.resolved d.stargazerCount (jsOrNull d.primaryLanguage) d.pushedAt),
            lastEnriched := some now }) ∧
    (result j = none → notFound.contains r = true →
      (applyBatch now batch result notFound items).get? k
        = some { it with github := some (.notFound now), lastEnriched := some now }) ∧
    (result j = none → notFound.contains r = false →
      (applyBatch now batch result notFound items).get? k = some it) := by
  have hbase : (applyBatch now batch result notFound items).get? k
      = some (enrichOutcome now (result j) (notFound.contains r) it) := by
    rw [applyBatch_get?, hk]
    simp only [Option.map_some']
    rw [slotFold_mem batch j 0 it r hit hnd hj]
    simp
  refine ⟨?_, ?_, ?_⟩
  · intro d hd
    rw [hbase, hd]
    rfl
  · intro hd hnf
    rw [hbase, hd, hnf]
    simp [enrichOutcome]
  · intro hd hnf
    rw [hbase, hd, hnf]
    simp [enrichOutcome]

/-- A batch candidate whose slot comes back silently absent. -/
def wItem4 : Item :=
  ⟨"Four", "https://github.com/o/four", "d4", "c", none, some "2025-06-01T00:00:00Z",
    some (.resolved 3 none "2025-05-01T00:00:00Z")⟩

theorem c6_three_way_outcome_witness :
    (applyBatch "T2" ["o/four"] (fun _ => none) [] [wItem4]).get? 0 = some wItem4 :=
  (c6_three_way_outcome "T2" ["o/four"] (fun _ => none) [] [wItem4] 0 0 "o/four" wItem4
    (by decide) rfl rfl (by decide)).2.2 rfl rfl

/-! ## C5: id handling in the freshness prober
(`src/enricher.ts` lines 195–273, `batchQueryListRepos`)

```ts
const repoQueries = batch.map((repo, idx) => {
  const [owner, name] = repo.split("/");
  return `repo${idx}: repository(owner: "${owner}", name: "${name}") { pushedAt }`;
});
const query = `query { ${repoQueries.join("\n")} }`;
```
Each id is split on `/` and its pieces are interpolated into the composed
GraphQL query verbatim.  When the provider rejects the query
(`json.errors && !json.data`), the handler marks EVERY repo of the batch
`null`:
```ts
for (const repo of batch) { results.set(repo, null); }
```
-/

/-- `repo.split(sep)` on a single-character separator, JS semantics:
`"a/b/c" -> ["a","b","c"]`, `"" -> [""]`, `"a/" -> ["a",""]`. -/
def splitCharAux (sep : Char) : List Char → List Char → List (List Char)
  | [], acc => [acc.reverse]
  | c :: rest, acc =>
    if c == sep then acc.reverse :: splitCharAux sep rest []
    else splitCharAux sep rest (c :: acc)

/-- `s.split("/")` and friends. -/
def splitOnChar (sep : Char) (s : String) : List String :=
  (splitCharAux sep s.toList []).map String.mk

/-- `parts.join(sep)`. -/
def joinWith (sep : String) : List String → String
  | [] => ""
  | [x] => x
  | x :: y :: xs => x ++ sep ++ joinWith sep (y :: xs)

/-- One `repoN: repository(owner: ..., name: ...)` fragment of the composed
query.  JS array destructuring `[owner, name] = repo.split("/")` leaves
`name` undefined when there is no `/`; an undefined interpolates as the text
`undefined`. -/
def repoQueryFragment (repo : String) (idx : Nat) : String :=
  let parts := splitOnChar '/' repo
  let owner := parts.headD ""
  let name := (parts.drop 1).headD "undefined"
  "repo" ++ toString idx ++ ": repository(owner: \"" ++ owner ++ "\", name: \"" ++ name ++
    "\") \x7b pushedAt \x7d"

/-- The composed batch query of `batchQueryListRepos`. -/
def buildListQuery (batch : List String) : String :=
  "query \x7b " ++
    joinWith "\n" (batch.enum.map (fun p => repoQueryFragment p.2 p.1)) ++ " \x7d"

/-- The observable outcome of one `batchQueryListRepos` POST. -/
inductive ListQueryResponse where
  | httpError (status : Nat)
  | networkError
  | totalError (msg : String)
  | withData (slots : Nat → Option String)

/-- The per-batch result recording of `batchQueryListRepos`
(`src/enricher.ts` lines 235–268): an HTTP error, a network error, or a
GraphQL response with errors and no data marks every repo of the batch
`null`; otherwise slot `idx` is read back (`if (data?.pushedAt)`, where a JS
empty string is falsy). -/
def processListBatch (batch : List String) (resp : ListQueryResponse) :
    List (String × Option String) :=
  match resp with
  | .httpError _ => batch.map (fun repo => (repo, none))
  | .networkError => batch.map (fun repo => (repo, none))
  | .totalError _ => batch.map (fun repo => (repo, none))
  | .withData slots =>
      batch.enum.map (fun p =>
        match slots p.1 with
        | some t => if t = "" then (p.2, none) else (p.2, some t)
        | none => (p.2, none))

/-- Modelled from the spec: the "strict identifier pattern" of §4.1 that
each source id is supposed to be checked against before being embedded in a
composed query.  The repository's own test suite calls it
`validateGitHubName` and expects it to accept letters, digits, `-`, `_` and
`.` and to reject empty strings, spaces, slashes, quotes and backticks.  No
such check exists anywhere in `batchQueryListRepos`. -/
def validateGitHubName (s : String) : Bool :=
  s ≠ "" && s.toList.all (fun c => c.isAlphanum || c = '-' || c = '_' || c = '.')

/-- Whether `needle` occurs as a contiguous substring of `hay`. -/
def containsSub (needle : List Char) : List Char → Bool
  | [] => needle.isEmpty
  | c :: t => startsWithChars needle (c :: t) || containsSub needle t

/-- C5 (code-bug evidence): `batchQueryListRepos` performs no validation.
An owner segment failing the strict identifier pattern (here one containing
a quote) is embedded verbatim into the composed query, and when the provider
rejects the resulting malformed query, the error handler marks every repo of
the batch unresolved — including the perfectly valid `good/repo` — so an
invalid id does make the whole batch fail. -/
theorem c5_no_validation_batch_poisoned :
    validateGitHubName "bad\"o" = false ∧
    containsSub "bad\"o".toList (buildListQuery ["good/repo", "bad\"o/x"]).toList = true ∧
    processListBatch ["good/repo", "bad\"o/x"] (.totalError "GraphQL parse error")
      = [("good/repo", none), ("bad\"o/x", none)] :=
  ⟨by decide, by decide, by decide⟩

/-! ## C8: blocklist lifecycle (`scripts/build-items.ts`)

```ts
const newItems = parseReadme(readme).filter(item => !deadUrls.has(item.url)); // lines 173, 239
...
entry.items = entry.items.filter(item => {                                    // lines 363–375
  if (item.github && "notFound" in item.github) {
    deadUrls.add(item.url);
    return false;
  }
  return true;
});
...
const deadUrlsList = Array.from(deadUrls).sort();                             // lines 394–395
await Bun.write(deadUrlsPath, JSON.stringify(deadUrlsList, null, 2));
```
The JS `Set` is embedded as a duplicate-free-by-construction `List String`
in insertion order (`setAdd`). -/

/-- The pre-diff dead-URL filter applied to every parse result. -/
def filterDead (deadUrls : List String) (parsed : List Item) : List Item :=
  parsed.filter (fun item => !(deadUrls.contains item.url))

/-- `item.github && "notFound" in item.github`. -/
def isNotFoundItem (it : Item) : Bool :=
  match it.github with
  | some (.notFound _) => true
  | _ => false

/-- `Set.add`: insert if absent (JS sets keep insertion order). -/
def setAdd (s : List String) (u : String) : List String :=
  if s.contains u then s else s ++ [u]

/-- The reaping filter over one entry's item list: drop `notFound`-marked
items, adding their URLs to the blocklist as they are encountered. -/
def reapItems (items : List Item) (dead : List String) : List Item × List String :=
  match items with
  | [] => ([], dead)
  | it :: rest =>
    if isNotFoundItem it then reapItems rest (setAdd dead it.url)
    else
      let r := reapItems rest dead
      (it :: r.1, r.2)

/-- `for (const entry of Object.values(index.lists))`: reap every entry,
threading the blocklist. -/
def reapRun (entries : List (List Item)) (dead : List String) :
    List (List Item) × List String :=
  match entries with
  | [] => ([], dead)
  | e :: rest =>
    let r := reapItems e dead
    let r2 := reapRun rest r.2
    (r.1 :: r2.1, r2.2)

/-- JS default `Array.prototype.sort` comparison is string order; one
insertion step. -/
def insertSorted (u : String) : List String → List String
  | [] => [u]
  | v :: rest => if u ≤ v then u :: v :: rest else v :: insertSorted u rest

/-- `Array.from(deadUrls).sort()`: the set's elements, sorted. -/
def sortStrings (l : List String) : List String := l.foldr insertSorted []

/-- The blocklist a run persists to `deadUrls.json`, given the blocklist it
loaded and the entries it reaps. -/
def runPersistedBlocklist (dead : List String) (entries : List (List Item)) : List String :=
  sortStrings (reapRun entries dead).2

/-- The blocklist on disk after a sequence of further runs, each loading the
previous run's blocklist and reaping its own entries. -/
def blocklistAfter (dead : List String) : List (List (List Item)) → List String
  | [] => dead
  | runEntries :: rest => blocklistAfter (runPersistedBlocklist dead runEntries) rest

lemma mem_setAdd {s : List String} {u a : String} : a ∈ setAdd s u ↔ a ∈ s ∨ a = u := by
  unfold setAdd
  split
  · rename_i hc
    constructor
    · exact Or.inl
    · rintro (h | rfl)
      · exact h
      · simpa using hc
  · simp [List.mem_append]

lemma reapItems_dead_mono : ∀ (items : List Item) (dead : List String) (u : String),
    u ∈ dead → u ∈ (reapItems items dead).2 := by
  intro items
  induction items with
  | nil => intro dead u h; exact h
  | cons it rest ih =>
    intro dead u h
    rw [reapItems]
    split
    · exact ih _ u (mem_setAdd.mpr (Or.inl h))
    · exact ih _ u h

lemma reapItems_collect : ∀ (items : List Item) (dead : List String) (it : Item),
    it ∈ items → isNotFoundItem it = true → it.url ∈ (reapItems items dead).2 := by
  intro items
  induction items with
  | nil => intro dead it h _; simp at h
  | cons hd rest ih =>
    intro dead it hmem hnf
    rw [reapItems]
    rcases List.mem_cons.mp hmem with rfl | hmem
    · rw [if_pos hnf]
      exact reapItems_dead_mono rest _ it.url (mem_setAdd.mpr (Or.inr rfl))
    · split
      · exact ih _ it hmem hnf
      · exact ih _ it hmem hnf

lemma reapItems_kept : ∀ (items : List Item) (dead : List String) (it : Item),
    it ∈ (reapItems items dead).1 → isNotFoundItem it = false := by
  intro items
  induction items with
  | nil => intro dead it h; simp [reapItems] at h
  | cons hd rest ih =>
    intro dead it h
    rw [reapItems] at h
    by_cases hc : isNotFoundItem hd = true
    · rw [if_pos hc] at h
      exact ih _ it h
    · rw [if_neg hc] at h
      rcases List.mem_cons.mp h with rfl | h
      · simpa using hc
      · exact ih _ it h

lemma reapRun_dead_mono : ∀ (entries : List (List Item)) (dead : List String) (u : String),
    u ∈ dead → u ∈ (reapRun entries dead).2 := by
  intro entries
  induction entries with
  | nil => intro dead u h; exact h
  | cons e rest ih =>
    intro dead u h
    exact ih _ u (reapItems_dead_mono e dead u h)

lemma reapRun_collect : ∀ (entries : List (List Item)) (dead : List String)
    (e : List Item) (it : Item), e ∈ entries → it ∈ e → isNotFoundItem it = true →
    it.url ∈ (reapRun entries dead).2 := by
  intro entries
  induction entries with
  | nil => intro dead e it h _ _; simp at h
  | cons e0 rest ih =>
    intro dead e it he hit hnf
    rcases List.mem_cons.mp he with rfl | he
    · exact reapRun_dead_mono rest _ it.url (reapItems_collect e dead it hit hnf)
    · exact ih _ e it he hit hnf

lemma reapRun_kept : ∀ (entries : List (List Item)) (dead : List String)
    (l : List Item) (it : Item), l ∈ (reapRun entries dead).1 → it ∈ l →
    isNotFoundItem it = false := by
  intro entries
  induction entries with
  | nil => intro dead l it h _; simp [reapRun] at h
  | cons e0 rest ih =>
    intro dead l it hl hit
    rw [reapRun] at hl
    rcases List.mem_cons.mp hl with rfl | hl
    · exact reapItems_kept e0 dead it hit
    · exact ih _ l it hl hit

lemma mem_insertSorted {u a : String} : ∀ l, a ∈ insertSorted u l ↔ a = u ∨ a ∈ l := by
  intro l
  induction l with
  | nil => simp [insertSorted]
  | cons v rest ih =>
    rw [insertSorted]
    split
    · simp [List.mem_cons]
    · simp only [List.mem_cons, ih]
      tauto

lemma mem_sortStrings {a : String} : ∀ l, a ∈ sortStrings l ↔ a ∈ l := by
  intro l
  induction l with
  | nil => simp [sortStrings]
  | cons x rest ih =>
    unfold sortStrings at ih ⊢
    rw [List.foldr_cons, mem_insertSorted]
    simp only [List.mem_cons, ih]

lemma filterDead_not_mem {B : List String} {parsed : List Item} {it : Item}
    (h : it ∈ filterDead B parsed) : it.url ∉ B := by
  have h2 := (List.mem_filter.mp h).2
  simpa using h2

lemma blocklistAfter_mono : ∀ (runs : List (List (List Item))) (dead : List String)
    (u : String), u ∈ dead → u ∈ blocklistAfter dead runs := by
  intro runs
  induction runs with
  | nil => intro dead u h; exact h
  | cons r rest ih =>
    intro dead u h
    rw [blocklistAfter]
    apply ih
    unfold runPersistedBlocklist
    exact (mem_sortStrings _).mpr (reapRun_dead_mono r dead u h)

/-- C8: the blocklist is append-only and reaped URLs never resurrect.  The
pre-diff filter never lets a blocklisted URL through; every URL loaded at
the start of a run is still in the blocklist it persists; every reaped URL
(a `notFound`-marked item) is in the persisted blocklist and its item is
dropped from every surviving entry; and after any number of future runs the
URL is still blocklisted, so no future filtered parse output ever contains
it again. -/
theorem c8_blocklist_no_resurrection (B : List String) (entries : List (List Item))
    (futureRuns : List (List (List Item))) :
    (∀ (B' : List String) (parsed : List Item) (it : Item),
      it ∈ filterDead B' parsed → it.url ∉ B') ∧
    (∀ u ∈ B, u ∈ runPersistedBlocklist B entries) ∧
    (∀ e ∈ entries, ∀ it ∈ e, isNotFoundItem it = true →
      it.url ∈ runPersistedBlocklist B entries) ∧
    (∀ l ∈ (reapRun entries B).1, ∀ it ∈ l, isNotFoundItem it = false) ∧
    (∀ u ∈ runPersistedBlocklist B entries,
      u ∈ blocklistAfter (runPersistedBlocklist B entries) futureRuns ∧
      ∀ parsed : List Item,
        u ∉ (filterDead (blocklistAfter (runPersistedBlocklist B entries) futureRuns)
          parsed).map Item.url) := by
  refine ⟨?_, ?_, ?_, ?_, ?_⟩
  · intro B' parsed it h
    exact filterDead_not_mem h
  · intro u hu
    exact (mem_sortStrings _).mpr (reapRun_dead_mono entries B u hu)
  · intro e he it hit hnf
    exact (mem_sortStrings _).mpr (reapRun_collect entries B e it he hit hnf)
  · intro l hl it hit
    exact reapRun_kept entries B l it hl hit
  · intro u hu
    refine ⟨blocklistAfter_mono futureRuns _ u hu, ?_⟩
    intro parsed hmem
    rcases List.mem_map.mp hmem with ⟨it, hin, hurl⟩
    exact filterDead_not_mem hin
      (hurl ▸ blocklistAfter_mono futureRuns _ u hu)

/-- A `notFound`-tagged item, as left behind by the enrichment client for a
confirmed-dead repo. -/
def deadSample : Item :=
  ⟨"Dead", "https://github.com/o/dead", "gone", "c", none, some "2026-03-01T00:00:00Z",
    some (.notFound "2026-03-01T00:00:00Z")⟩

theorem c8_blocklist_no_resurrection_witness :
    deadSample ∈ [deadSample] ∧
    deadSample.url ∈ runPersistedBlocklist [] [[deadSample]] :=
  ⟨List.mem_singleton.mpr rfl,
    (c8_blocklist_no_resurrection [] [[deadSample]] []).2.2.1 [deadSample]
      (by decide) deadSample (by decide) rfl⟩

/-! ## C10: `diffItems` never mutates its inputs (heap model)

JS objects are references into a heap, and C10 is a frame property, so this
section re-runs the translation of `src/diff.ts` with the heap explicit: a
`Heap` is a list of `Item` cells addressed by index, the input arrays are
lists of addresses, `added.push(newItem)` / `removed.push(oldItem)` copy a
reference, and the object spreads of lines 27–31 and 34–38 allocate fresh
cells.  `diffItems` contains no assignment to any existing object or array;
the model reflects this by only ever appending to the heap, and the theorem
checks that every pre-existing cell is unchanged.  The input address lists
themselves are Lean values and cannot be mutated by construction. -/

/-- An object heap: `Item` cells addressed by position. -/
structure Heap where
  cells : List Item
  deriving Repr, DecidableEq

/-- An object reference. -/
abbrev Addr := Nat

/-- Read the cell at `a`, if allocated. -/
def Heap.get? (h : Heap) (a : Addr) : Option Item := h.cells.get? a

/-- Dereference with a dummy default; only well-formed inputs pass valid
addresses, and the frame theorem holds regardless. -/
def Heap.getD (h : Heap) (a : Addr) : Item :=
  (h.cells.get? a).getD ⟨"", "", "", "", none, none, none⟩

/-- Allocate a fresh cell (a JS object literal). -/
def Heap.alloc (h : Heap) (it : Item) : Heap × Addr :=
  (⟨h.cells ++ [it]⟩, h.cells.length)

/-- The new-item classification loop of `diffItems` with the heap explicit:
`added` collects the existing references, `unchanged`/`updated` collect the
freshly allocated spread copies. -/
def classifyNewH (oldVals : List Item) :
    List Addr → Heap → Heap × List Addr × List Addr × List Addr
  | [], h => (h, [], [], [])
  | a :: rest, h =>
    match mapGetByUrl oldVals (h.getD a).url with
    | none =>
      let r := classifyNewH oldVals rest h
      (r.1, a :: r.2.1, r.2.2.1, r.2.2.2)
    | some o =>
      if o.name == (h.getD a).name && o.description == (h.getD a).description then
        let r := classifyNewH oldVals rest (h.alloc (preserveEnrichment (h.getD a) o)).1
        (r.1, r.2.1, (h.alloc (preserveEnrichment (h.getD a) o)).2 :: r.2.2.1, r.2.2.2)
      else
        let r := classifyNewH oldVals rest (h.alloc (preserveEnrichment (h.getD a) o)).1
        (r.1, r.2.1, r.2.2.1, (h.alloc (preserveEnrichment (h.getD a) o)).2 :: r.2.2.2)

/-- Heap-level result of `diffItems`. -/
structure HDiff where
  heap : Heap
  added : List Addr
  removed : List Addr
  unchanged : List Addr
  updated : List Addr

/-- `diffItems` with the heap explicit. -/
def diffItemsH (h : Heap) (oldAddrs newAddrs : List Addr) : HDiff :=
  let oldVals := oldAddrs.map h.getD
  let r := classifyNewH oldVals newAddrs h
  { heap := r.1
    added := r.2.1
    removed := oldAddrs.filter (fun a => !(hasUrl (newAddrs.map h.getD) (h.getD a).url))
    unchanged := r.2.2.1
    updated := r.2.2.2 }

lemma classifyNewH_heap_extends (oldVals : List Item) : ∀ (newAddrs : List Addr) (h : Heap),
    ∃ t, (classifyNewH oldVals newAddrs h).1.cells = h.cells ++ t := by
  intro newAddrs
  induction newAddrs with
  | nil => intro h; exact ⟨[], by simp [classifyNewH]⟩
  | cons a rest ih =>
    intro h
    cases hm : mapGetByUrl oldVals (h.getD a).url with
    | none =>
      simp only [classifyNewH, hm]
      exact ih h
    | some o =>
      simp only [classifyNewH, hm]
      split
      all_goals
        obtain ⟨t, ht⟩ := ih (h.alloc (preserveEnrichment (h.getD a) o)).1
        exact ⟨preserveEnrichment (h.getD a) o :: t, by
          simpa [Heap.alloc, List.append_assoc] using ht⟩

lemma classifyNewH_fresh (oldVals : List Item) : ∀ (newAddrs : List Addr) (h : Heap)
    (a : Addr),
    (a ∈ (classifyNewH oldVals newAddrs h).2.2.1 ∨
      a ∈ (classifyNewH oldVals newAddrs h).2.2.2) →
    h.cells.length ≤ a := by
  intro newAddrs
  induction newAddrs with
  | nil => intro h a ha; simp [classifyNewH] at ha
  | cons x rest ih =>
    intro h a ha
    cases hm : mapGetByUrl oldVals (h.getD x).url with
    | none =>
      simp only [classifyNewH, hm] at ha
      exact ih h a ha
    | some o =>
      simp only [classifyNewH, hm] at ha
      have hlen : (h.alloc (preserveEnrichment (h.getD x) o)).1.cells.length
          = h.cells.length + 1 := by simp [Heap.alloc]
      split at ha
      · rcases ha with ha | ha
        · rcases List.mem_cons.mp ha with rfl | ha
          · exact le_refl _
          · have := ih _ a (Or.inl ha)
            omega
        · have := ih _ a (Or.inr ha)
          omega
      · rcases ha with ha | ha
        · have := ih _ a (Or.inl ha)
          omega
        · rcases List.mem_cons.mp ha with rfl | ha
          · exact le_refl _
          · have := ih _ a (Or.inr ha)
            omega

/-- C10: `diffItemsH` never mutates its inputs — every heap cell that
existed before the call (in particular every item of both input arrays)
still holds exactly its old value afterwards — and every reference in the
`unchanged` and `updated` outputs is a freshly allocated copy (an address
that did not exist before the call). -/
theorem c10_diffItems_no_mutation (h : Heap) (oldAddrs newAddrs : List Addr) :
    (∀ a : Addr, a < h.cells.length →
      (diffItemsH h oldAddrs newAddrs).heap.get? a = h.get? a) ∧
    (∀ a : Addr,
      a ∈ (diffItemsH h oldAddrs newAddrs).unchanged ∨
        a ∈ (diffItemsH h oldAddrs newAddrs).updated →
      h.cells.length ≤ a) := by
  constructor
  · intro a hlt
    obtain ⟨t, ht⟩ :=
      classifyNewH_heap_extends (oldAddrs.map h.getD) newAddrs h
    show (classifyNewH (oldAddrs.map h.getD) newAddrs h).1.cells.get? a = h.cells.get? a
    rw [ht]
    exact List.get?_append hlt
  · intro a ha
    exact classifyNewH_fresh (oldAddrs.map h.getD) newAddrs h a ha

/-- A two-cell heap: cell 0 is the old item, cell 1 the newly parsed item
with the same URL but a changed name. -/
def wHeap : Heap := ⟨[sampleOldA, sampleNewA]⟩

theorem c10_diffItems_no_mutation_witness :
    (0 < wHeap.cells.length ∧ (diffItemsH wHeap [0] [1]).heap.get? 0 = wHeap.get? 0) ∧
    ((2 : Addr) ∈ (diffItemsH wHeap [0] [1]).updated ∧ wHeap.cells.length ≤ 2) :=
  ⟨⟨by decide, (c10_diffItems_no_mutation wHeap [0] [1]).1 0 (by decide)⟩,
    ⟨by decide, (c10_diffItems_no_mutation wHeap [0] [1]).2 2 (Or.inr (by decide))⟩⟩
